import Mathlib

/-
Verification of the Ed25519 signature core in ed25519.py against its
natural-language specification.  The Python source is shallowly embedded:
Python arbitrary-precision integers become Int (or Nat where the source
value is always non-negative), byte strings become List Nat, Python `%`
on a positive modulus is Int.emod / Nat.mod, and the three-argument
built-in pow(b, e, m) is embedded as an executable binary modular
exponentiation (powmod / pyPow below) together with a proof that it
computes b ^ e mod m.
-/

set_option maxRecDepth 16000
set_option maxHeartbeats 1000000

namespace Ed25519

/-- Fuel-driven binary modular exponentiation.  One fuel unit is spent per
halving of the exponent, so any fuel bound above the bit length of the
exponent computes the exact modular power (powmodGo_eq below). -/
def powmodGo (m : Nat) : Nat → Nat → Nat → Nat → Nat
  | 0, _b, _e, acc => acc
  | fuel + 1, b, e, acc =>
      if e = 0 then acc
      else powmodGo m fuel (b * b % m) (e / 2) (if e % 2 = 1 then acc * b % m else acc)

/-- Embedding of Python pow(b, e, m) for natural b, e and positive m:
binary modular exponentiation. -/
def powmod (b e m : Nat) : Nat :=
  if m = 0 then b ^ e else powmodGo m (e + 1) (b % m) e (1 % m)

/-- Embedding of Python pow(b, e, m) for an integer base, a non-negative
exponent and a positive modulus; the result lies in [0, m), as in Python. -/
def pyPow (b e m : Int) : Int := ((powmod ((b % m).toNat) e.toNat m.toNat : Nat) : Int)

/-- The base-field prime of Curve25519, from the source line Q = 2**255 - 19. -/
def Q : Int := 2 ^ 255 - 19

/-- The group order, from the source line
L = 2**252 + 27742317777372353535851937790883648493. -/
def L : Nat := 2 ^ 252 + 27742317777372353535851937790883648493

/-- The prime Q as a natural number, used to move modular-arithmetic goals
into the ring ZMod. -/
def Qn : Nat := 2 ^ 255 - 19

/-- Modular inverse by Fermat exponentiation, from the source:
def _inv(x): return pow(x, Q-2, Q). -/
def _inv (x : Int) : Int := pyPow x (Q - 2) Q

/-- Curve constant, from the source: d = -121665 * _inv(121666).
Note that the source does not reduce this product modulo Q. -/
def d : Int := -121665 * _inv 121666

/-- Fourth root of unity, from the source: I = pow(2, (Q-1)//4, Q). -/
def I : Int := pyPow 2 ((Q - 1) / 4) Q

/-- Square-root recovery of an x-coordinate from a y-coordinate, from the
source function _xrecover. -/
def _xrecover (y : Int) : Int :=
  let xx := (y * y - 1) * _inv (d * y * y + 1)
  let x0 := pyPow xx ((Q + 3) / 8) Q
  let x1 := if (x0 * x0 - xx) % Q ≠ 0 then (x0 * I) % Q else x0
  if x1 % 2 ≠ 0 then Q - x1 else x1

/-- Base point y-coordinate, from the source: By = 4 * _inv(5). -/
def By : Int := 4 * _inv 5

/-- Base point x-coordinate, from the source: Bx = _xrecover(By). -/
def Bx : Int := _xrecover By

/-- The base point, from the source: B = [Bx % Q, By % Q]. -/
def B : Int × Int := (Bx % Q, By % Q)

/-- Extended (X, Y, Z, T) coordinates of a curve point. -/
abbrev P4 := Int × Int × Int × Int

/-- Affine-to-extended transform, from the source _xform_affine_to_extended. -/
def _xform_affine_to_extended (pt : Int × Int) : P4 :=
  ((pt.1 % Q), (pt.2 % Q), 1, (pt.1 * pt.2) % Q)

/-- Extended-to-affine transform, from the source _xform_extended_to_affine. -/
def _xform_extended_to_affine (pt : P4) : Int × Int :=
  match pt with
  | (x, y, z, _) => ((x * _inv z) % Q, (y * _inv z) % Q)

/-- Extended-coordinate doubling, from the source _double_element. -/
def _double_element (pt : P4) : P4 :=
  match pt with
  | (X1, Y1, Z1, _) =>
    let A := X1 * X1
    let Bv := Y1 * Y1
    let C := 2 * Z1 * Z1
    let D := (-A) % Q
    let J := (X1 + Y1) % Q
    let E := (J * J - A - Bv) % Q
    let G := (D + Bv) % Q
    let F := (G - C) % Q
    let H := (D - Bv) % Q
    ((E * F) % Q, (G * H) % Q, (F * G) % Q, (E * H) % Q)

/-- Extended-coordinate addition, from the source _add_elements. -/
def _add_elements (pt1 pt2 : P4) : P4 :=
  match pt1, pt2 with
  | (X1, Y1, Z1, T1), (X2, Y2, Z2, T2) =>
    let A := ((Y1 - X1) * (Y2 + X2)) % Q
    let Bv := ((Y1 + X1) * (Y2 - X2)) % Q
    let C := (Z1 * 2 * T2) % Q
    let D := (T1 * 2 * Z2) % Q
    let E := (D + C) % Q
    let F := (Bv - A) % Q
    let G := (Bv + A) % Q
    let H := (D - C) % Q
    ((E * F) % Q, (G * H) % Q, (F * G) % Q, (E * H) % Q)

/-- One iteration shape of the while loop of _scalarmult_element: the loop
runs while n > 0, adding the current doubling into the accumulator R when
the low bit of n is set and halving n each iteration.  Recursion is
well-founded because n strictly decreases (n / 2 < n for n > 0). -/
def scalarmultLoop (R : P4) (pt : P4) (n : Nat) : P4 :=
  if n = 0 then R
  else scalarmultLoop (if n % 2 = 1 then _add_elements R pt else R) (_double_element pt) (n / 2)
termination_by n
decreasing_by omega

/-- Double-and-add scalar multiplication, from the source _scalarmult_element. -/
def _scalarmult_element (pt : P4) (n : Nat) : P4 :=
  if n = 0 then _xform_affine_to_extended (0, 1)
  else scalarmultLoop (_xform_affine_to_extended (0, 1)) pt n

/-! SHA-512.  The source provides a from-scratch one-shot implementation
(_sha512_one_shot) used when no native sha512 is available; the native
branch of _H computes the same standard function.  Bytes are modeled as
List Nat entries; 64-bit arithmetic uses Nat with explicit masking by
M64 = 2^64 - 1 exactly where the source masks. -/

/-- The 64-bit mask 0xffffffffffffffff used throughout the source hash code. -/
def M64 : Nat := 0xffffffffffffffff

/-- Round constants table _K of SHA-512, verbatim from the source. -/
def _K : List Nat :=
  [0x428a2f98d728ae22,0x7137449123ef65cd,0xb5c0fbcfec4d3b2f,0xe9b5dba58189dbbc,
   0x3956c25bf348b538,0x59f111f1b605d019,0x923f82a4af194f9b,0xab1c5ed5da6d8118] ++
  [0xd807aa98a3030242,0x12835b0145706fbe,0x243185be4ee4b28c,0x550c7dc3d5ffb4e2,
   0x72be5d74f27b896f,0x80deb1fe3b1696b1,0x9bdc06a725c71235,0xc19bf174cf692694] ++
  [0xe49b69c19ef14ad2,0xefbe4786384f25e3,0x0fc19dc68b8cd5b5,0x240ca1cc77ac9c65,
   0x2de92c6f592b0275,0x4a7484aa6ea6e483,0x5cb0a9dcbd41fbd4,0x76f988da831153b5] ++
  [0x983e5152ee66dfab,0xa831c66d2db43210,0xb00327c898fb213f,0xbf597fc7beef0ee4,
   0xc6e00bf33da88fc2,0xd5a79147930aa725,0x06ca6351e003826f,0x142929670a0e6e70] ++
  [0x27b70a8546d22ffc,0x2e1b21385c26c926,0x4d2c6dfc5ac42aed,0x53380d139d95b3df,
   0x650a73548baf63de,0x766a0abb3c77b2a8,0x81c2c92e47edaee6,0x92722c851482353b] ++
  [0xa2bfe8a14cf10364,0xa81a664bbc423001,0xc24b8b70d0f89791,0xc76c51a30654be30,
   0xd192e819d6ef5218,0xd69906245565a910,0xf40e35855771202a,0x106aa07032bbd1b8] ++
  [0x19a4c116b8d2d0c8,0x1e376c085141ab53,0x2748774cdf8eeb99,0x34b0bcb5e19b48a8,
   0x391c0cb3c5c95a63,0x4ed8aa4ae3418acb,0x5b9cca4f7763e373,0x682e6ff3d6b2b8a3] ++
  [0x748f82ee5defb2fc,0x78a5636f43172f60,0x84c87814a1f0ab72,0x8cc702081a6439ec,
   0x90befffa23631e28,0xa4506cebde82bde9,0xbef9a3f7b2c67915,0xc67178f2e372532b] ++
  [0xca273eceea26619c,0xd186b8c721c0c207,0xeada7dd6cde0eb1e,0xf57d4f7fee6ed178,
   0x06f067aa72176fba,0x0a637dc5a2c898a6,0x113f9804bef90dae,0x1b710b35131c471b] ++
  [0x28db77f523047d84,0x32caab7b40c72493,0x3c9ebe0a15c9bebc,0x431d67c49c100d4c,
   0x4cc5d4becb3e42b6,0x597f299cfc657e2a,0x5fcb6fab3ad6faec,0x6c44198c4a475817]

/-- Initial hash value of SHA-512, verbatim from the source. -/
def H0 : List Nat := [
  0x6a09e667f3bcc908,0xbb67ae8584caa73b,0x3c6ef372fe94f82b,0xa54ff53a5f1d36f1,
  0x510e527fade682d1,0x9b05688c2b3e6c1f,0x1f83d9abfb41bd6b,0x5be0cd19137e2179]

/-- Right rotation of a 64-bit word, from the source _rotr. -/
def _rotr (x n : Nat) : Nat := ((x >>> n) ||| (x <<< (64 - n))) &&& M64

/-- Logical right shift, from the source _shr. -/
def _shr (x n : Nat) : Nat := x >>> n

/-- Choice function, from the source _Ch.  For the 64-bit operands that
occur, the Python expression ~x & z coincides with (M64 ^^^ x) &&& z. -/
def _Ch (x y z : Nat) : Nat := (x &&& y) ^^^ ((M64 ^^^ x) &&& z)

/-- Majority function, from the source _Maj. -/
def _Maj (x y z : Nat) : Nat := (x &&& y) ^^^ (x &&& z) ^^^ (y &&& z)

/-- Big sigma-0, from the source _BSIG0. -/
def _BSIG0 (x : Nat) : Nat := _rotr x 28 ^^^ _rotr x 34 ^^^ _rotr x 39

/-- Big sigma-1, from the source _BSIG1. -/
def _BSIG1 (x : Nat) : Nat := _rotr x 14 ^^^ _rotr x 18 ^^^ _rotr x 41

/-- Small sigma-0, from the source _SSIG0. -/
def _SSIG0 (x : Nat) : Nat := _rotr x 1 ^^^ _rotr x 8 ^^^ _shr x 7

/-- Small sigma-1, from the source _SSIG1. -/
def _SSIG1 (x : Nat) : Nat := _rotr x 19 ^^^ _rotr x 61 ^^^ _shr x 6

/-- Working state (a, b, c, d, e, f, g, h) of the compression function. -/
structure St where
  sa : Nat
  sb : Nat
  sc : Nat
  sd : Nat
  se : Nat
  sf : Nat
  sg : Nat
  sh : Nat
deriving DecidableEq

/-- One round of the compression loop, from the source round body:
T1 = (h + BSIG1 e + Ch e f g + K t + W t) masked; T2 = (BSIG0 a + Maj a b c)
masked; then the simultaneous assignment rotating the state. -/
def sha512Round (k w : Nat) (s : St) : St :=
  let T1 := (s.sh + _BSIG1 s.se + _Ch s.se s.sf s.sg + k + w) &&& M64
  let T2 := (_BSIG0 s.sa + _Maj s.sa s.sb s.sc) &&& M64
  ⟨(T1 + T2) &&& M64, s.sa, s.sb, s.sc, (s.sd + T1) &&& M64, s.se, s.sf, s.sg⟩

/-- The 80 rounds of the source, consuming the constant table and the message
schedule in lockstep. -/
def roundsList : List Nat → List Nat → St → St
  | k :: ks, w :: ws, s => roundsList ks ws (sha512Round k w s)
  | _, _, s => s

/-- The message-schedule extension loop of the source: appends k more words,
each computed from the last 16 entries of the growing list. -/
def extendW : Nat → List Nat → List Nat
  | 0, W => W
  | k + 1, W =>
      extendW k (W ++ [(_SSIG1 (W.getD (W.length - 2) 0) + W.getD (W.length - 7) 0 +
        _SSIG0 (W.getD (W.length - 15) 0) + W.getD (W.length - 16) 0) &&& M64])

/-- Big-endian 8-byte words from a byte list, modeling struct.unpack(">16Q"). -/
def bytesToWordsBE : List Nat → List Nat
  | b0 :: b1 :: b2 :: b3 :: b4 :: b5 :: b6 :: b7 :: rest =>
      (((((((b0 * 256 + b1) * 256 + b2) * 256 + b3) * 256 + b4) * 256 + b5) * 256 + b6) * 256
        + b7) :: bytesToWordsBE rest
  | _ => []

/-- Little-endian base-256 digits of y, n bytes. -/
def leBytes (n y : Nat) : List Nat := (List.range n).map fun i => y / 256 ^ i % 256

/-- Big-endian base-256 digits of y, n bytes.  This models both
struct.pack(">Q", y) and the "%064x" rendering followed by unhexlify, both of
which produce the fixed-width big-endian byte string of y (y < 256^n at every
use site, which is proved where needed). -/
def beBytes (n y : Nat) : List Nat := (leBytes n y).reverse

/-- The zero-padding while loop of the source: append zero bytes until the
length is 16 bytes short of a multiple of 128.  Each appended byte strictly
decreases the distance to the next block boundary, which bounds the loop. -/
def padLoop (m : List Nat) : List Nat :=
  if (m.length + 16) % 128 = 0 then m else padLoop (m ++ [0])
termination_by (128 - (m.length + 16) % 128) % 128
decreasing_by simp only [List.length_append, List.length_cons, List.length_nil]; omega

/-- The 128-bit length suffix of the source: struct.pack(">QQ", ml >> 64
masked, ml masked). -/
def pack2Q (ml : Nat) : List Nat := beBytes 8 ((ml >>> 64) &&& M64) ++ beBytes 8 (ml &&& M64)

/-- Fuel-driven 128-byte block splitting; each step removes at least one
element, so fuel equal to the list length always suffices. -/
def chunks128Go : Nat → List Nat → List (List Nat)
  | 0, _ => []
  | _ + 1, [] => []
  | fuel + 1, l => l.take 128 :: chunks128Go fuel (l.drop 128)

/-- Split into 128-byte blocks, modeling the range(0, len(msg), 128) slicing. -/
def chunks128 (l : List Nat) : List (List Nat) := chunks128Go l.length l

/-- One 128-byte block of the source compression loop: build the 80-entry
schedule, run 80 rounds from the current hash state, add back. -/
def sha512Block (H : List Nat) (block : List Nat) : List Nat :=
  let W := extendW 64 (bytesToWordsBE block)
  let s := roundsList _K W
    ⟨H.getD 0 0, H.getD 1 0, H.getD 2 0, H.getD 3 0,
     H.getD 4 0, H.getD 5 0, H.getD 6 0, H.getD 7 0⟩
  [(H.getD 0 0 + s.sa) &&& M64, (H.getD 1 0 + s.sb) &&& M64, (H.getD 2 0 + s.sc) &&& M64,
   (H.getD 3 0 + s.sd) &&& M64, (H.getD 4 0 + s.se) &&& M64, (H.getD 5 0 + s.sf) &&& M64,
   (H.getD 6 0 + s.sg) &&& M64, (H.getD 7 0 + s.sh) &&& M64]

/-- The from-scratch fallback SHA-512, from the source _sha512_one_shot:
append 0x80, zero-pad, append the 128-bit big-endian bit length as two masked
64-bit words, compress each 1024-bit block, emit the final state big-endian. -/
def _sha512_one_shot (msg : List Nat) : List Nat :=
  let ml := msg.length * 8
  let padded := padLoop (msg ++ [0x80]) ++ pack2Q ml
  let Hf := (chunks128 padded).foldl sha512Block H0
  (Hf.map (beBytes 8)).flatten

/-! Specification-side SHA-512, written from the specification's description
of the standard algorithm (FIPS 180-4): 1024-bit blocks, 80 rounds with the
fixed round-constant table, padding with a single 1 bit (0x80 on byte input),
the least number of zero bits reaching 16 bytes short of a block boundary,
and a 128-bit big-endian length suffix.  All 64-bit arithmetic is written as
reduction modulo 2^64. -/

/-- Number of zero bytes the standard padding inserts: the least z with
len + 1 + z + 16 a multiple of 128. -/
def specPadZeroCount (len : Nat) : Nat := (128 - (len + 17) % 128) % 128

/-- Standard SHA-512 padding in closed form. -/
def sha512SpecPad (msg : List Nat) : List Nat :=
  msg ++ [0x80] ++ List.replicate (specPadZeroCount msg.length) 0 ++
    beBytes 16 (msg.length * 8 % 2 ^ 128)

/-- Standard message schedule as a recursive function of the round index:
the first 16 words come from the block, later words from the sigma recurrence
modulo 2^64. -/
def specW (w16 : List Nat) (t : Nat) : Nat :=
  if t < 16 then w16.getD t 0
  else (_SSIG1 (specW w16 (t - 2)) + specW w16 (t - 7) +
        _SSIG0 (specW w16 (t - 15)) + specW w16 (t - 16)) % 2 ^ 64
termination_by t
decreasing_by all_goals omega

/-- One standard round with addition modulo 2^64. -/
def specRound (k w : Nat) (s : St) : St :=
  let T1 := (s.sh + _BSIG1 s.se + _Ch s.se s.sf s.sg + k + w) % 2 ^ 64
  let T2 := (_BSIG0 s.sa + _Maj s.sa s.sb s.sc) % 2 ^ 64
  ⟨(T1 + T2) % 2 ^ 64, s.sa, s.sb, s.sc, (s.sd + T1) % 2 ^ 64, s.se, s.sf, s.sg⟩

/-- One standard compression-function application: 80 indexed rounds, then
the feed-forward addition modulo 2^64. -/
def sha512SpecBlock (H : List Nat) (block : List Nat) : List Nat :=
  let w16 := bytesToWordsBE block
  let s := (List.range 80).foldl
    (fun s t => specRound (_K.getD t 0) (specW w16 t) s)
    ⟨H.getD 0 0, H.getD 1 0, H.getD 2 0, H.getD 3 0,
     H.getD 4 0, H.getD 5 0, H.getD 6 0, H.getD 7 0⟩
  [(H.getD 0 0 + s.sa) % 2 ^ 64, (H.getD 1 0 + s.sb) % 2 ^ 64, (H.getD 2 0 + s.sc) % 2 ^ 64,
   (H.getD 3 0 + s.sd) % 2 ^ 64, (H.getD 4 0 + s.se) % 2 ^ 64, (H.getD 5 0 + s.sf) % 2 ^ 64,
   (H.getD 6 0 + s.sg) % 2 ^ 64, (H.getD 7 0 + s.sh) % 2 ^ 64]

/-- Standard SHA-512 digest of a byte string, per the specification's
description of the algorithm. -/
def sha512Spec (msg : List Nat) : List Nat :=
  (((chunks128 (sha512SpecPad msg)).foldl sha512SpecBlock H0).map (beBytes 8)).flatten

/-! Key and signature operations. -/

/-- The ValueError message raised by the source on a wrong-length seed. -/
def seedErrorMsg : String := "priv_key must be 32 bytes"

/-- Byte reversal, from the source helper _rev. -/
def _rev (b : List Nat) : List Nat := b.reverse

/-- SHA-512 as used by the source _H.  The source prefers a native sha512
and falls back to _sha512_one_shot; both compute standard SHA-512 (the
fallback is proved equal to the standard algorithm below), so _H is embedded
as the fallback. -/
def _H (m : List Nat) : List Nat := _sha512_one_shot m

/-- Little-endian integer reading of a byte string.  This models
int(binascii.hexlify(_rev(b)), 16): reverse the bytes, read them big-endian. -/
def bytesToNatLE : List Nat → Nat
  | [] => 0
  | b :: rest => b + 256 * bytesToNatLE rest

/-- Hash-to-integer, from the source _Hint: the digest read little-endian. -/
def _Hint (m : List Nat) : Nat := bytesToNatLE (_H m)

/-- Little-endian scalar decoding, from the source _bytes_to_scalar. -/
def _bytes_to_scalar (s : List Nat) : Nat := bytesToNatLE s

/-- Standard Ed25519 clamping, from the source _bytes_to_clamped_scalar:
clear the lowest 3 bits, clear the highest bit, set the second-highest bit. -/
def _bytes_to_clamped_scalar (s : List Nat) : Nat :=
  let a_unclamped := _bytes_to_scalar s
  let AND_CLAMP := (1 <<< 254) - 1 - 7
  let OR_CLAMP := 1 <<< 254
  (a_unclamped &&& AND_CLAMP) ||| OR_CLAMP

/-- Point compression, from the source _encodepoint: 32 bytes little-endian
of y, with bit 255 set when x is odd. -/
def _encodepoint (P : Int × Int) : List Nat :=
  let x := P.1
  let y := if x % 2 = 1 then P.2 + 2 ^ 255 else P.2
  _rev (beBytes 32 y.toNat)

/-- Scalar encoding, from the source _scalar_to_bytes: reduce modulo L, emit
32 bytes little-endian. -/
def _scalar_to_bytes (y : Nat) : List Nat := _rev (beBytes 32 (y % L))

/-- Public-key derivation, from the source create_public_key.  The Python
raises ValueError on a wrong-length seed; failure is modeled with Except. -/
def create_public_key (priv_key : List Nat) : Except String (List Nat) :=
  if priv_key.length ≠ 32 then .error seedErrorMsg else
  let h := _H priv_key
  let a := _bytes_to_clamped_scalar (h.take 32)
  let A_pt := _scalarmult_element (_xform_affine_to_extended B) a
  let A_affine := _xform_extended_to_affine A_pt
  .ok (_encodepoint A_affine)

/-- Signing, from the source sign.  The Python raises ValueError on a
wrong-length seed; failure is modeled with Except. -/
def sign (priv_key message : List Nat) : Except String (List Nat) :=
  if priv_key.length ≠ 32 then .error seedErrorMsg else
  match create_public_key priv_key with
  | .error e => .error e
  | .ok pub_key =>
    let h := _H priv_key
    let a := _bytes_to_clamped_scalar (h.take 32)
    let inter := h.drop 32
    let r := _Hint (inter ++ message)
    let R_pt := _scalarmult_element (_xform_affine_to_extended B) r
    let R_affine := _xform_extended_to_affine R_pt
    let R_bytes := _encodepoint R_affine
    let S := r + _Hint (R_bytes ++ pub_key ++ message) * a
    .ok (R_bytes ++ _scalar_to_bytes S)

/-! Basic lemmas about the embedding. -/

theorem powmodGo_eq (m : Nat) (hm : 0 < m) :
    ∀ fuel b e acc, e < 2 ^ fuel → acc < m →
      powmodGo m fuel b e acc = acc * b ^ e % m := by
  intro fuel
  induction fuel with
  | zero =>
    intro b e acc he hacc
    have he0 : e = 0 := by simpa using he
    subst he0
    simp [powmodGo, Nat.mod_eq_of_lt hacc]
  | succ f ih =>
    intro b e acc he hacc
    by_cases h0 : e = 0
    · subst h0
      simp [powmodGo, Nat.mod_eq_of_lt hacc]
    · rw [powmodGo, if_neg h0]
      have hdiv : e / 2 < 2 ^ f := by
        have h2 : e < 2 ^ f * 2 := by
          have := he; rw [pow_succ] at this; omega
        omega
      have hacc' : (if e % 2 = 1 then acc * b % m else acc) < m := by
        split
        · exact Nat.mod_lt _ hm
        · exact hacc
      rw [ih _ _ _ hdiv hacc']
      by_cases hpar : e % 2 = 1
      · have hee : e = 2 * (e / 2) + 1 := by omega
        rw [if_pos hpar]
        calc (acc * b % m) * (b * b % m) ^ (e / 2) % m
            = (acc * b % m % m) * ((b * b % m) ^ (e / 2) % m) % m := by
              rw [← Nat.mul_mod]
          _ = (acc * b % m) * ((b * b) ^ (e / 2) % m) % m := by
              rw [Nat.mod_mod_of_dvd _ dvd_rfl, ← Nat.pow_mod]
          _ = (acc * b) * ((b * b) ^ (e / 2)) % m := by
              rw [← Nat.mul_mod]
          _ = acc * b ^ e % m := by
              conv_rhs => rw [hee]
              ring_nf
      · have hee : e = 2 * (e / 2) := by omega
        rw [if_neg hpar]
        calc acc * (b * b % m) ^ (e / 2) % m
            = (acc % m) * ((b * b % m) ^ (e / 2) % m) % m := by
              rw [← Nat.mul_mod]
          _ = (acc % m) * ((b * b) ^ (e / 2) % m) % m := by
              rw [← Nat.pow_mod]
          _ = acc * ((b * b) ^ (e / 2)) % m := by
              rw [← Nat.mul_mod]
          _ = acc * b ^ e % m := by
              conv_rhs => rw [hee]
              ring_nf

theorem powmod_eq (b e m : Nat) (hm : 0 < m) : powmod b e m = b ^ e % m := by
  rw [powmod, if_neg (Nat.pos_iff_ne_zero.mp hm)]
  rw [powmodGo_eq m hm (e + 1) (b % m) e (1 % m)
      (lt_of_lt_of_le (Nat.lt_two_pow e) (Nat.pow_le_pow_right (by omega) (by omega)))
      (Nat.mod_lt _ hm)]
  calc (1 % m) * (b % m) ^ e % m
      = (1 % m % m) * ((b % m) ^ e % m) % m := by rw [← Nat.mul_mod]
    _ = (1 % m) * (b ^ e % m) % m := by
        rw [Nat.mod_mod_of_dvd _ dvd_rfl, ← Nat.pow_mod]
    _ = 1 * b ^ e % m := by rw [← Nat.mul_mod]
    _ = b ^ e % m := by rw [one_mul]

theorem pyPow_eq (b e m : Int) (hm : 0 < m) :
    pyPow b e m = b ^ e.toNat % m := by
  have hmn : (0:Nat) < m.toNat := by omega
  have hm0 : m ≠ 0 := by omega
  rw [pyPow, powmod_eq _ _ _ hmn]
  have hme : ((m.toNat : Int)) = m := Int.toNat_of_nonneg hm.le
  push_cast
  rw [hme, Int.toNat_of_nonneg (Int.emod_nonneg b hm0)]
  exact Int.ModEq.pow e.toNat (Int.emod_emod_of_dvd b dvd_rfl)

theorem pyPow_nonneg (b e m : Int) : 0 ≤ pyPow b e m := by
  rw [pyPow]; positivity

theorem pyPow_lt (b e m : Int) (hm : 0 < m) : pyPow b e m < m := by
  rw [pyPow_eq b e m hm]
  exact Int.emod_lt_of_pos _ hm

theorem Q_pos : (0:Int) < Q := by norm_num [Q]

theorem Qn_cast : ((Qn : Nat) : Int) = Q := by norm_num [Qn, Q]

theorem emod_Q_nonneg (a : Int) : 0 ≤ a % Q := Int.emod_nonneg a (by norm_num [Q])

theorem emod_Q_lt (a : Int) : a % Q < Q := Int.emod_lt_of_pos a Q_pos

theorem inv_zero_eq : _inv 0 = 0 := by
  rw [_inv, pyPow_eq _ _ _ Q_pos, zero_pow ?_, Int.zero_emod]
  norm_num [Q]

theorem inv_one_eq : _inv 1 = 1 := by
  rw [_inv, pyPow_eq _ _ _ Q_pos, one_pow]
  exact Int.emod_eq_of_lt (by norm_num) (by norm_num [Q])

theorem By_lt_Q : By < Q := by decide

theorem encodepoint_payload_bound (x y : Int) (hy0 : 0 ≤ y) (hy1 : y < Q) :
    0 ≤ (if x % 2 = 1 then y + 2 ^ 255 else y) ∧
    (if x % 2 = 1 then y + 2 ^ 255 else y) < 2 ^ 256 := by
  have hq : Q = 2 ^ 255 - 19 := rfl
  split <;> constructor <;> omega

theorem encodepoint_length (P : Int × Int) : (_encodepoint P).length = 32 := by
  simp [_encodepoint, _rev, beBytes, leBytes]

theorem scalar_to_bytes_length (y : Nat) : (_scalar_to_bytes y).length = 32 := by
  simp [_scalar_to_bytes, _rev, beBytes, leBytes]

/-! Claim C10. -/

/-- C10: the field inverse is total and never raises: for every integer x the
value _inv x = pow(x, Q-2, Q) lies in [0, Q), and _inv 0 returns 0 silently
rather than failing. -/
theorem inv_total_inRange :
    (∀ x : Int, 0 ≤ _inv x ∧ _inv x < Q) ∧ _inv 0 = 0 :=
  ⟨fun x => ⟨pyPow_nonneg x (Q - 2) Q, pyPow_lt x (Q - 2) Q Q_pos⟩, inv_zero_eq⟩

/-! Claim C3. -/

/-- C3 counterexample: the module-level constant d = -121665 * _inv(121666)
is stored as a negative integer, not reduced into [0, Q). -/
theorem d_is_negative : ¬ (0 ≤ d ∧ d < Q) := by
  intro hcontra
  have hd : d < 0 := by
    have hpos : 0 < _inv 121666 := by decide
    have : d = -121665 * _inv 121666 := rfl
    nlinarith
  omega

/-- C3 amended: with the sole exception of d (stored negative and unreduced),
every module-level field-element constant (I, Bx, By, the components of B)
lies in [0, Q), and every component returned by the point operations
(to-extended, to-affine, double, add) and by _xrecover is reduced into
[0, Q). -/
theorem field_elements_reduced :
    d < 0 ∧
    (0 ≤ I ∧ I < Q) ∧ (0 ≤ Bx ∧ Bx < Q) ∧ (0 ≤ By ∧ By < Q) ∧
    (0 ≤ B.1 ∧ B.1 < Q) ∧ (0 ≤ B.2 ∧ B.2 < Q) ∧
    (∀ y : Int, 0 ≤ _xrecover y ∧ _xrecover y < Q) ∧
    (∀ pt : Int × Int, ∀ z ∈ [(_xform_affine_to_extended pt).1,
        (_xform_affine_to_extended pt).2.1, (_xform_affine_to_extended pt).2.2.1,
        (_xform_affine_to_extended pt).2.2.2], 0 ≤ z ∧ z < Q) ∧
    (∀ pt : P4, ∀ z ∈ [(_xform_extended_to_affine pt).1,
        (_xform_extended_to_affine pt).2], 0 ≤ z ∧ z < Q) ∧
    (∀ pt : P4, ∀ z ∈ [(_double_element pt).1, (_double_element pt).2.1,
        (_double_element pt).2.2.1, (_double_element pt).2.2.2], 0 ≤ z ∧ z < Q) ∧
    (∀ pt1 pt2 : P4, ∀ z ∈ [(_add_elements pt1 pt2).1, (_add_elements pt1 pt2).2.1,
        (_add_elements pt1 pt2).2.2.1, (_add_elements pt1 pt2).2.2.2], 0 ≤ z ∧ z < Q) := by
  have hxr : ∀ y : Int, 0 ≤ _xrecover y ∧ _xrecover y < Q := by
    intro y
    rw [_xrecover]
    set xx := (y * y - 1) * _inv (d * y * y + 1) with hxx
    set x0 := pyPow xx ((Q + 3) / 8) Q with hx0
    have h0 : 0 ≤ x0 ∧ x0 < Q := ⟨pyPow_nonneg _ _ _, pyPow_lt _ _ _ Q_pos⟩
    set x1 := if (x0 * x0 - xx) % Q ≠ 0 then x0 * I % Q else x0 with hx1
    have h1 : 0 ≤ x1 ∧ x1 < Q := by
      rw [hx1]
      split
      · exact ⟨emod_Q_nonneg _, emod_Q_lt _⟩
      · exact h0
    split
    case isTrue hodd =>
      have hne : x1 ≠ 0 := by
        intro hz; rw [hz] at hodd; simp at hodd
      omega
    case isFalse => exact h1
  refine ⟨?_, ⟨pyPow_nonneg _ _ _, pyPow_lt _ _ _ Q_pos⟩, ?_, ?_,
      ⟨emod_Q_nonneg _, emod_Q_lt _⟩, ⟨emod_Q_nonneg _, emod_Q_lt _⟩, hxr, ?_, ?_, ?_, ?_⟩
  · have hpos : 0 < _inv 121666 := by decide
    have : d = -121665 * _inv 121666 := rfl
    nlinarith
  · exact hxr By
  · constructor
    · rw [By, _inv]
      exact mul_nonneg (by norm_num) (pyPow_nonneg _ _ _)
    · exact By_lt_Q
  · intro pt z hz
    simp only [_xform_affine_to_extended, List.mem_cons, List.not_mem_nil, or_false] at hz
    rcases hz with h | h | h | h <;> subst h
    · exact ⟨emod_Q_nonneg _, emod_Q_lt _⟩
    · exact ⟨emod_Q_nonneg _, emod_Q_lt _⟩
    · exact ⟨by norm_num, by norm_num [Q]⟩
    · exact ⟨emod_Q_nonneg _, emod_Q_lt _⟩
  · intro pt z hz
    obtain ⟨x, y, zc, t⟩ := pt
    simp only [_xform_extended_to_affine, List.mem_cons, List.not_mem_nil, or_false] at hz
    rcases hz with h | h <;> subst h <;> exact ⟨emod_Q_nonneg _, emod_Q_lt _⟩
  · intro pt z hz
    obtain ⟨x, y, zc, t⟩ := pt
    simp only [_double_element, List.mem_cons, List.not_mem_nil, or_false] at hz
    rcases hz with h | h | h | h <;> subst h <;> exact ⟨emod_Q_nonneg _, emod_Q_lt _⟩
  · intro pt1 pt2 z hz
    obtain ⟨x1, y1, z1, t1⟩ := pt1
    obtain ⟨x2, y2, z2, t2⟩ := pt2
    simp only [_add_elements, List.mem_cons, List.not_mem_nil, or_false] at hz
    rcases hz with h | h | h | h <;> subst h <;> exact ⟨emod_Q_nonneg _, emod_Q_lt _⟩

/-! Claim C5. -/

theorem mul_emod_pair {a b c e : Int} (h : a * b = c * e) :
    (a % Q * (b % Q)) % Q = (c % Q * (e % Q)) % Q := by
  rw [← Int.mul_emod, h, Int.mul_emod]

/-- C5: the extended-coordinate invariant X * Y congruent to T * Z mod Q is
established by the affine-to-extended transform and holds for the output of
double and add unconditionally (in particular whenever the inputs satisfy
the claim's hypotheses). -/
theorem extended_invariant :
    (∀ x y : Int,
      ((_xform_affine_to_extended (x, y)).1 * (_xform_affine_to_extended (x, y)).2.1) % Q =
      ((_xform_affine_to_extended (x, y)).2.2.2 * (_xform_affine_to_extended (x, y)).2.2.1) % Q) ∧
    (∀ pt : P4,
      ((_double_element pt).1 * (_double_element pt).2.1) % Q =
      ((_double_element pt).2.2.2 * (_double_element pt).2.2.1) % Q) ∧
    (∀ pt1 pt2 : P4,
      ((_add_elements pt1 pt2).1 * (_add_elements pt1 pt2).2.1) % Q =
      ((_add_elements pt1 pt2).2.2.2 * (_add_elements pt1 pt2).2.2.1) % Q) := by
  refine ⟨?_, ?_, ?_⟩
  · intro x y
    simp only [_xform_affine_to_extended]
    rw [← Int.mul_emod, mul_one, Int.emod_emod_of_dvd _ dvd_rfl]
  · intro pt
    obtain ⟨x, y, z, t⟩ := pt
    simp only [_double_element]
    exact mul_emod_pair (by ring)
  · intro pt1 pt2
    obtain ⟨x1, y1, z1, t1⟩ := pt1
    obtain ⟨x2, y2, z2, t2⟩ := pt2
    simp only [_add_elements]
    exact mul_emod_pair (by ring)

/-! Claim C8. -/

/-- C8: create_public_key and sign succeed exactly when the seed has length
32, and fail with the invalid-input error otherwise; a wrong-length seed is
never silently truncated or padded, and nothing else fails. -/
theorem seed_length_errors (priv msg : List Nat) :
    ((∃ out, create_public_key priv = Except.ok out) ↔ priv.length = 32) ∧
    ((∃ out, sign priv msg = Except.ok out) ↔ priv.length = 32) ∧
    (priv.length ≠ 32 →
      create_public_key priv = Except.error seedErrorMsg ∧
      sign priv msg = Except.error seedErrorMsg) := by
  by_cases h : priv.length = 32
  · refine ⟨?_, ?_, fun hc => absurd h hc⟩
    · simp [create_public_key, h]
    · simp [sign, create_public_key, h]
  · refine ⟨?_, ?_, fun _ => ⟨by simp [create_public_key, h], by simp [sign, h]⟩⟩
    · simp [create_public_key, h]
    · simp [sign, h]

/-! Claim C9. -/

/-- C9: key derivation is total: for every 32-byte seed, create_public_key
terminates (the embedded double-and-add loop recurses on n / 2 < n, which is
exactly the well-foundedness of the source loop) and returns 32 bytes. -/
theorem public_key_totality (priv : List Nat) (h : priv.length = 32) :
    ∃ out, create_public_key priv = Except.ok out ∧ out.length = 32 := by
  have hok : create_public_key priv = Except.ok (_encodepoint (_xform_extended_to_affine
      (_scalarmult_element (_xform_affine_to_extended B)
        (_bytes_to_clamped_scalar ((_H priv).take 32))))) := by
    simp [create_public_key, h]
  exact ⟨_, hok, encodepoint_length _⟩

/-- Witness for C9 at the all-zero 32-byte seed. -/
theorem public_key_totality_witness :
    (List.replicate 32 0).length = 32 ∧
    ∃ out, create_public_key (List.replicate 32 0) = Except.ok out ∧ out.length = 32 :=
  ⟨by simp, public_key_totality (List.replicate 32 0) (by simp)⟩

/-! Claim C7. -/

/-- C7: clamping clears bits 0-2, clears bit 255, sets bit 254 — so the
clamped scalar is divisible by 8 and lies in [2^254, 2^255) — and agrees
with the little-endian decoding of the input on bits 3 through 253. -/
theorem clamp_spec (s : List Nat) (h : s.length = 32) :
    _bytes_to_clamped_scalar s % 8 = 0 ∧
    (_bytes_to_clamped_scalar s).testBit 254 = true ∧
    (_bytes_to_clamped_scalar s).testBit 255 = false ∧
    2 ^ 254 ≤ _bytes_to_clamped_scalar s ∧ _bytes_to_clamped_scalar s < 2 ^ 255 ∧
    ∀ i : Nat, 3 ≤ i → i ≤ 253 →
      (_bytes_to_clamped_scalar s).testBit i = (_bytes_to_scalar s).testBit i := by
  set n := _bytes_to_scalar s with hn
  have ha : _bytes_to_clamped_scalar s = (n &&& ((2 ^ 251 - 1) <<< 3)) ||| 2 ^ 254 := by
    rw [_bytes_to_clamped_scalar, ← hn]
    norm_num [Nat.shiftLeft_eq]
  have hM : ∀ j, ((2 ^ 251 - 1) <<< 3 : Nat).testBit j =
      (decide (j ≥ 3) && decide (j - 3 < 251)) := by
    intro j
    rw [Nat.testBit_shiftLeft, Nat.testBit_two_pow_sub_one]
  have hbit : ∀ j, (_bytes_to_clamped_scalar s).testBit j =
      ((n.testBit j && (decide (j ≥ 3) && decide (j - 3 < 251))) || decide (254 = j)) := by
    intro j
    rw [ha, Nat.testBit_or, Nat.testBit_and, hM, Nat.testBit_two_pow]
  have h254 : (_bytes_to_clamped_scalar s).testBit 254 = true := by
    rw [hbit]; simp
  refine ⟨?_, h254, ?_, Nat.testBit_implies_ge h254, ?_, ?_⟩
  · have h8 : (8:Nat) = 2 ^ 3 := by norm_num
    rw [h8, ← Nat.and_pow_two_sub_one_eq_mod]
    apply Nat.eq_of_testBit_eq
    intro j
    rw [Nat.testBit_and, hbit]
    by_cases hj : j < 3
    · have h1 : ¬(3 ≤ j) := by omega
      have h2 : 254 ≠ j := by omega
      simp [h1, h2]
    · have h7 : Nat.testBit 7 j = false := by
        have h73 : (7:Nat) = 2 ^ 3 - 1 := by norm_num
        rw [h73, Nat.testBit_two_pow_sub_one]
        simpa using hj
      simp [h7]
  · rw [hbit]; simp
  · rw [ha]
    exact Nat.or_lt_two_pow
      (lt_of_le_of_lt Nat.and_le_right (by norm_num [Nat.shiftLeft_eq])) (by norm_num)
  · intro i h3 h253
    rw [hbit]
    have e1 : 3 ≤ i := h3
    have e2 : i - 3 < 251 := by omega
    have e3 : ¬(254 = i) := by omega
    simp [e1, e2, e3]

/-- Witness for C7 at the all-zero 32-byte input. -/
theorem clamp_spec_witness :
    (List.replicate 32 0).length = 32 ∧
    (_bytes_to_clamped_scalar (List.replicate 32 0) % 8 = 0 ∧
     (_bytes_to_clamped_scalar (List.replicate 32 0)).testBit 254 = true ∧
     (_bytes_to_clamped_scalar (List.replicate 32 0)).testBit 255 = false ∧
     2 ^ 254 ≤ _bytes_to_clamped_scalar (List.replicate 32 0) ∧
     _bytes_to_clamped_scalar (List.replicate 32 0) < 2 ^ 255 ∧
     ∀ i : Nat, 3 ≤ i → i ≤ 253 →
       (_bytes_to_clamped_scalar (List.replicate 32 0)).testBit i =
       (_bytes_to_scalar (List.replicate 32 0)).testBit i) :=
  ⟨by simp, clamp_spec (List.replicate 32 0) (by simp)⟩

/-! Claim C4. -/

theorem idExt_eq : _xform_affine_to_extended (0, 1) = ((0, 1, 1, 0) : P4) := by
  rw [_xform_affine_to_extended]
  norm_num
  exact Int.emod_eq_of_lt (by norm_num) (by norm_num [Q])

theorem scalarmult_one (pt : P4) :
    _scalarmult_element pt 1 = _add_elements ((0, 1, 1, 0) : P4) pt := by
  rw [_scalarmult_element, if_neg one_ne_zero, scalarmultLoop, if_neg one_ne_zero]
  norm_num [idExt_eq]
  rw [scalarmultLoop]
  simp

theorem scalarmult_zero (pt : P4) : _scalarmult_element pt 0 = ((0, 1, 1, 0) : P4) := by
  rw [_scalarmult_element, if_pos rfl, idExt_eq]

theorem affine_of_idExt : _xform_extended_to_affine ((0, 1, 1, 0) : P4) = (0, 1) := by
  rw [_xform_extended_to_affine]
  norm_num [inv_one_eq]
  exact Int.emod_eq_of_lt (by norm_num) (by norm_num [Q])

theorem add_self_degenerate (P : P4) :
    _xform_extended_to_affine (_add_elements P P) = (0, 0) := by
  obtain ⟨X, Y, Z, T⟩ := P
  have hBA : ((Y + X) * (Y - X)) % Q - ((Y - X) * (Y + X)) % Q = 0 := by
    rw [mul_comm (Y + X) (Y - X)]; exact sub_self _
  simp only [_add_elements, _xform_extended_to_affine, hBA, Int.zero_emod,
    zero_mul, mul_zero, inv_zero_eq]

theorem modQ_eq_iff_zmod {a b : Int} : ((a : ZMod Qn) = (b : ZMod Qn)) ↔ a % Q = b % Q := by
  rw [ZMod.intCast_eq_intCast_iff', Qn_cast]

theorem castQ_drop (a : Int) : ((a % Q : Int) : ZMod Qn) = (a : ZMod Qn) := by
  rw [← Qn_cast]
  exact ZMod.intCast_mod a Qn

/-- C4 counterexample: the extended-coordinate identity P0 = (0, 1, 1, 0) is
a valid point (projectively on the curve, Z nonzero mod Q, X·Y = T·Z), yet
the affine form of double(P0) is (0, 1) while the affine form of
add(P0, P0) is (0, 0), refuting the claimed identity
to_affine(double P) = to_affine(add P P); and the affine form of
scalar_mult(P0, 1) is (0, 0) while the affine form of P0 is (0, 1),
refuting the claimed identity to_affine(scalar_mult(P, 1)) = to_affine(P). -/
theorem double_vs_add_at_identity :
    (((-((0:Int) * 0) + 1 * 1) * (1 * 1)) % Q =
      (((1:Int) * 1) * (1 * 1) + d * (0 * 0) * (1 * 1)) % Q) ∧
    ((1 : Int) % Q ≠ 0) ∧ (((0:Int) * 1) % Q = (0 * 1 : Int) % Q) ∧
    _xform_extended_to_affine (_double_element ((0, 1, 1, 0) : P4)) = (0, 1) ∧
    _xform_extended_to_affine (_add_elements ((0, 1, 1, 0) : P4) ((0, 1, 1, 0) : P4)) = (0, 0) ∧
    _xform_extended_to_affine (_double_element ((0, 1, 1, 0) : P4)) ≠
      _xform_extended_to_affine (_add_elements ((0, 1, 1, 0) : P4) ((0, 1, 1, 0) : P4)) ∧
    _xform_extended_to_affine (_scalarmult_element ((0, 1, 1, 0) : P4) 1) = (0, 0) ∧
    _xform_extended_to_affine ((0, 1, 1, 0) : P4) = (0, 1) ∧
    _xform_extended_to_affine (_scalarmult_element ((0, 1, 1, 0) : P4) 1) ≠
      _xform_extended_to_affine ((0, 1, 1, 0) : P4) := by
  have hs1 : _xform_extended_to_affine (_scalarmult_element ((0, 1, 1, 0) : P4) 1) = (0, 0) := by
    rw [scalarmult_one]
    exact add_self_degenerate _
  refine ⟨by norm_num, by norm_num [Q], rfl, ?_, add_self_degenerate _, ?_, hs1,
      affine_of_idExt, ?_⟩
  · decide
  · decide
  · rw [hs1, affine_of_idExt]
    decide

/-- C4 amended: for every valid extended point P — projectively on the
curve ((-X^2 + Y^2) Z^2 = Z^4 + d X^2 Y^2 mod Q), Z nonzero mod Q,
X·Y = T·Z mod Q — the addition formula degenerates on equal arguments:
to_affine(add(P, P)) is (0, 0), so the claimed double/add identity fails
wherever to_affine(double P) differs from (0, 0), in particular at the
identity (see the counterexample); scalar_mult(P, 1) computes
add(identity, P), whose X, Y, Z coordinates are those of P scaled by the
common factor -4·T mod Q — projectively P, while the original
affine-equality form fails at points with T congruent to 0, as the
counterexample shows at the identity; and scalar_mult(P, 0) returns the
extended identity (0, 1, 1, 0), whose affine form is (0, 1). -/
theorem scalarmult_identities (X Y Z T : Int)
    (_hcurve : ((-(X * X) + Y * Y) * (Z * Z)) % Q =
      ((Z * Z) * (Z * Z) + d * (X * X) * (Y * Y)) % Q)
    (_hZ : Z % Q ≠ 0)
    (hXYTZ : (X * Y) % Q = (T * Z) % Q) :
    _xform_extended_to_affine (_add_elements (X, Y, Z, T) (X, Y, Z, T)) = (0, 0) ∧
    _scalarmult_element (X, Y, Z, T) 1 = _add_elements ((0, 1, 1, 0) : P4) (X, Y, Z, T) ∧
    (_scalarmult_element (X, Y, Z, T) 1).1 = (-4 * T * X) % Q ∧
    (_scalarmult_element (X, Y, Z, T) 1).2.1 = (-4 * T * Y) % Q ∧
    (_scalarmult_element (X, Y, Z, T) 1).2.2.1 = (-4 * T * Z) % Q ∧
    _scalarmult_element (X, Y, Z, T) 0 = ((0, 1, 1, 0) : P4) ∧
    _xform_extended_to_affine ((0, 1, 1, 0) : P4) = (0, 1) := by
  have hz : (X : ZMod Qn) * (Y : ZMod Qn) = (T : ZMod Qn) * (Z : ZMod Qn) := by
    have := modQ_eq_iff_zmod.mpr hXYTZ
    push_cast at this
    exact this
  refine ⟨add_self_degenerate _, scalarmult_one _, ?_, ?_, ?_, scalarmult_zero _,
      affine_of_idExt⟩
  · rw [scalarmult_one]
    simp only [_add_elements]
    refine modQ_eq_iff_zmod.mp ?_
    push_cast [castQ_drop]
    ring
  · rw [scalarmult_one]
    simp only [_add_elements]
    refine modQ_eq_iff_zmod.mp ?_
    push_cast [castQ_drop]
    ring
  · rw [scalarmult_one]
    simp only [_add_elements]
    refine modQ_eq_iff_zmod.mp ?_
    push_cast [castQ_drop]
    linear_combination (-4 : ZMod Qn) * hz

/-- Witness for C4 (amended) at the valid point (0, 1, 1, 0). -/
theorem scalarmult_identities_witness :
    ((((-((0:Int) * 0) + 1 * 1) * (1 * 1)) % Q =
       (((1:Int) * 1) * (1 * 1) + d * (0 * 0) * (1 * 1)) % Q) ∧
     ((1:Int) % Q ≠ 0) ∧ (((0:Int) * 1) % Q = (0 * 1 : Int) % Q)) ∧
    (_xform_extended_to_affine (_add_elements ((0:Int), 1, 1, 0) ((0:Int), 1, 1, 0)) = (0, 0) ∧
     _scalarmult_element ((0:Int), 1, 1, 0) 1 = _add_elements ((0, 1, 1, 0) : P4) (0, 1, 1, 0) ∧
     (_scalarmult_element ((0:Int), 1, 1, 0) 1).1 = (-4 * 0 * 0 : Int) % Q ∧
     (_scalarmult_element ((0:Int), 1, 1, 0) 1).2.1 = (-4 * 0 * 1 : Int) % Q ∧
     (_scalarmult_element ((0:Int), 1, 1, 0) 1).2.2.1 = (-4 * 0 * 1 : Int) % Q ∧
     _scalarmult_element ((0:Int), 1, 1, 0) 0 = ((0, 1, 1, 0) : P4) ∧
     _xform_extended_to_affine ((0, 1, 1, 0) : P4) = (0, 1)) :=
  ⟨⟨by norm_num, by norm_num [Q], rfl⟩,
   scalarmult_identities 0 1 1 0 (by norm_num) (by norm_num [Q]) rfl⟩

/-! Claim C1. -/

/-- C1: for every 32-byte seed and every message, sign returns the 64-byte
concatenation R_bytes and the encoding of S, where a is the clamped low half
of the seed hash, the prefix is the high half, r = Hint(prefix ++ message)
is used without reduction modulo L, R_bytes encodes scalar_mult(B, r) in
affine form, k = Hint(R_bytes ++ pub ++ message), and S = r + k * a is
computed in unbounded integer arithmetic and reduced modulo L only inside
the final scalar encoding. -/
theorem sign_formula (priv_key message : List Nat) (h : priv_key.length = 32) :
    sign priv_key message =
      Except.ok
        (_encodepoint (_xform_extended_to_affine (_scalarmult_element
            (_xform_affine_to_extended B)
            (_Hint ((_H priv_key).drop 32 ++ message)))) ++
         _scalar_to_bytes
           (_Hint ((_H priv_key).drop 32 ++ message) +
            _Hint (_encodepoint (_xform_extended_to_affine (_scalarmult_element
                (_xform_affine_to_extended B)
                (_Hint ((_H priv_key).drop 32 ++ message)))) ++
              _encodepoint (_xform_extended_to_affine (_scalarmult_element
                (_xform_affine_to_extended B)
                (_bytes_to_clamped_scalar ((_H priv_key).take 32)))) ++ message) *
            _bytes_to_clamped_scalar ((_H priv_key).take 32))) ∧
    (_encodepoint (_xform_extended_to_affine (_scalarmult_element
        (_xform_affine_to_extended B)
        (_Hint ((_H priv_key).drop 32 ++ message)))) ++
      _scalar_to_bytes
        (_Hint ((_H priv_key).drop 32 ++ message) +
         _Hint (_encodepoint (_xform_extended_to_affine (_scalarmult_element
             (_xform_affine_to_extended B)
             (_Hint ((_H priv_key).drop 32 ++ message)))) ++
           _encodepoint (_xform_extended_to_affine (_scalarmult_element
             (_xform_affine_to_extended B)
             (_bytes_to_clamped_scalar ((_H priv_key).take 32)))) ++ message) *
         _bytes_to_clamped_scalar ((_H priv_key).take 32))).length = 64 := by
  constructor
  · have hne : ¬(priv_key.length ≠ 32) := by omega
    simp only [sign, create_public_key, if_neg hne]
  · rw [List.length_append, encodepoint_length, scalar_to_bytes_length]

/-- Witness for C1 at the all-zero 32-byte seed and the empty message. -/
theorem sign_formula_witness :
    (List.replicate 32 0).length = 32 ∧
    (sign (List.replicate 32 0) [] =
      Except.ok
        (_encodepoint (_xform_extended_to_affine (_scalarmult_element
            (_xform_affine_to_extended B)
            (_Hint ((_H (List.replicate 32 0)).drop 32 ++ [])))) ++
         _scalar_to_bytes
           (_Hint ((_H (List.replicate 32 0)).drop 32 ++ []) +
            _Hint (_encodepoint (_xform_extended_to_affine (_scalarmult_element
                (_xform_affine_to_extended B)
                (_Hint ((_H (List.replicate 32 0)).drop 32 ++ [])))) ++
              _encodepoint (_xform_extended_to_affine (_scalarmult_element
                (_xform_affine_to_extended B)
                (_bytes_to_clamped_scalar ((_H (List.replicate 32 0)).take 32)))) ++ []) *
            _bytes_to_clamped_scalar ((_H (List.replicate 32 0)).take 32))) ∧
     (_encodepoint (_xform_extended_to_affine (_scalarmult_element
          (_xform_affine_to_extended B)
          (_Hint ((_H (List.replicate 32 0)).drop 32 ++ [])))) ++
       _scalar_to_bytes
         (_Hint ((_H (List.replicate 32 0)).drop 32 ++ []) +
          _Hint (_encodepoint (_xform_extended_to_affine (_scalarmult_element
              (_xform_affine_to_extended B)
              (_Hint ((_H (List.replicate 32 0)).drop 32 ++ [])))) ++
            _encodepoint (_xform_extended_to_affine (_scalarmult_element
              (_xform_affine_to_extended B)
              (_bytes_to_clamped_scalar ((_H (List.replicate 32 0)).take 32)))) ++ []) *
          _bytes_to_clamped_scalar ((_H (List.replicate 32 0)).take 32))).length = 64) :=
  ⟨by simp, sign_formula (List.replicate 32 0) [] (by simp)⟩

/-! Claim C2: lemmas relating the source hash code to the standard algorithm. -/

theorem mask64 (x : Nat) : x &&& M64 = x % 2 ^ 64 := by
  have hm : M64 = 2 ^ 64 - 1 := by norm_num [M64]
  rw [hm, Nat.and_pow_two_sub_one_eq_mod]

theorem specRound_eq (k w : Nat) (s : St) : specRound k w s = sha512Round k w s := by
  simp [specRound, sha512Round, mask64]

theorem padLoop_eq_aux : ∀ k (m : List Nat), (128 - (m.length + 16) % 128) % 128 = k →
    padLoop m = m ++ List.replicate k 0 := by
  intro k
  induction k with
  | zero =>
    intro m hk
    have h0 : (m.length + 16) % 128 = 0 := by omega
    rw [padLoop, if_pos h0]
    simp
  | succ k ih =>
    intro m hk
    have hne : (m.length + 16) % 128 ≠ 0 := by omega
    rw [padLoop, if_neg hne, ih (m ++ [0]) (by simp; omega), List.append_assoc]
    rfl

theorem padLoop_eq (m : List Nat) :
    padLoop m = m ++ List.replicate ((128 - (m.length + 16) % 128) % 128) 0 :=
  padLoop_eq_aux _ m rfl

theorem leBytes_length (n y : Nat) : (leBytes n y).length = n := by simp [leBytes]

theorem leBytes_add (a b y : Nat) :
    leBytes (a + b) y = leBytes a (y % 256 ^ a) ++ leBytes b (y / 256 ^ a) := by
  unfold leBytes
  rw [List.range_add, List.map_append, List.map_map]
  congr 1
  · apply List.map_congr_left
    intro i hi
    simp only [List.mem_range] at hi
    have ha : (256:Nat) ^ a = 256 ^ i * 256 ^ (a - i) := by
      rw [← pow_add]
      congr 1
      omega
    conv_rhs => rw [ha, Nat.mod_mul_right_div_self,
      Nat.mod_mod_of_dvd _ (dvd_pow_self 256 (by omega : a - i ≠ 0))]
  · apply List.map_congr_left
    intro i hi
    simp only [Function.comp]
    rw [Nat.div_div_eq_div_mul, ← pow_add]

theorem pack2Q_eq (ml : Nat) : pack2Q ml = beBytes 16 (ml % 2 ^ 128) := by
  rw [pack2Q, beBytes, beBytes, beBytes, ← List.reverse_append]
  congr 1
  have h16 : (16:Nat) = 8 + 8 := rfl
  rw [h16, leBytes_add]
  have h256 : (256:Nat) ^ 8 = 2 ^ 64 := by norm_num
  congr 1
  · congr 1
    rw [mask64, h256, Nat.mod_mod_of_dvd]
    exact ⟨2 ^ 64, by norm_num⟩
  · congr 1
    rw [mask64, Nat.shiftRight_eq_div_pow, h256]
    have h128 : (2:Nat) ^ 128 = 2 ^ 64 * 2 ^ 64 := by norm_num
    rw [h128, Nat.mod_mul_right_div_self]

theorem chunks128Go_irrel : ∀ f1 f2 (l : List Nat), l.length ≤ f1 → l.length ≤ f2 →
    chunks128Go f1 l = chunks128Go f2 l := by
  intro f1
  induction f1 with
  | zero =>
    intro f2 l h1 _
    have : l = [] := by
      cases l
      · rfl
      · simp at h1
    subst this
    cases f2 <;> simp [chunks128Go]
  | succ f1 ih =>
    intro f2 l h1 h2
    cases l with
    | nil => cases f2 <;> simp [chunks128Go]
    | cons a l' =>
      cases f2 with
      | zero => simp at h2
      | succ f2' =>
        simp only [chunks128Go]
        congr 1
        apply ih
        · simp at h1 ⊢; omega
        · simp at h2 ⊢; omega

theorem chunks128_eq (l : List Nat) :
    chunks128 l = if l = [] then [] else l.take 128 :: chunks128 (l.drop 128) := by
  cases l with
  | nil => simp [chunks128, chunks128Go]
  | cons a l' =>
    rw [if_neg (by simp)]
    show chunks128Go (a :: l').length (a :: l') = _
    simp only [List.length_cons, chunks128Go]
    congr 1
    rw [chunks128]
    apply chunks128Go_irrel
    · simp
    · simp

theorem chunks128_length : ∀ n (l : List Nat), l.length ≤ n → l.length % 128 = 0 →
    ∀ c ∈ chunks128 l, c.length = 128 := by
  intro n
  induction n with
  | zero =>
    intro l hl _ c hc
    have : l = [] := by
      cases l
      · rfl
      · simp at hl
    subst this
    simp [chunks128, chunks128Go] at hc
  | succ n ih =>
    intro l hl hmod c hc
    rw [chunks128_eq] at hc
    by_cases hnil : l = []
    · simp [hnil] at hc
    · rw [if_neg hnil] at hc
      have hpos : 0 < l.length := List.length_pos.mpr hnil
      have h128 : 128 ≤ l.length := by omega
      rcases List.mem_cons.mp hc with rfl | hc
      · simp [List.length_take]
        omega
      · exact ih (l.drop 128) (by simp; omega) (by simp; omega) c hc

theorem bytesToWordsBE_length : ∀ l : List Nat, (bytesToWordsBE l).length = l.length / 8 := by
  intro l
  induction l using bytesToWordsBE.induct with
  | case1 b0 b1 b2 b3 b4 b5 b6 b7 rest ih =>
    simp only [bytesToWordsBE, List.length_cons, ih]
    omega
  | case2 l h =>
    rcases l with _ | ⟨b0, _ | ⟨b1, _ | ⟨b2, _ | ⟨b3, _ | ⟨b4, _ | ⟨b5, _ | ⟨b6, _ | ⟨b7, rest⟩⟩⟩⟩⟩⟩⟩⟩
    · simp [bytesToWordsBE]
    · simp [bytesToWordsBE]
    · simp [bytesToWordsBE]
    · simp [bytesToWordsBE]
    · simp [bytesToWordsBE]
    · simp [bytesToWordsBE]
    · simp [bytesToWordsBE]
    · simp [bytesToWordsBE]
    · exact (h b0 b1 b2 b3 b4 b5 b6 b7 rest rfl).elim

theorem rangeMap_getD (f : Nat → Nat) (n i : Nat) (h : i < n) :
    ((List.range n).map f).getD i 0 = f i := by
  rw [List.getD_eq_getElem?_getD, List.getElem?_map, List.getElem?_range h]
  rfl

theorem w16_as_rangeMap (w16 : List Nat) (h : w16.length = 16) :
    w16 = (List.range 16).map (fun t => specW w16 t) := by
  apply List.ext_getElem
  · simp [h]
  · intro i h1 h2
    rw [List.getElem_map, List.getElem_range]
    rw [specW, if_pos (by omega : i < 16)]
    rw [List.getD_eq_getElem?_getD, List.getElem?_eq_getElem h1]
    rfl

theorem extendW_rangeMap (w16 : List Nat) :
    ∀ k n, 16 ≤ n →
      extendW k ((List.range n).map (specW w16)) = (List.range (n + k)).map (specW w16) := by
  intro k
  induction k with
  | zero => intro n hn; simp [extendW]
  | succ k ih =>
    intro n hn
    rw [extendW]
    have hlen : ((List.range n).map (specW w16)).length = n := by simp
    rw [hlen]
    rw [rangeMap_getD _ _ _ (by omega), rangeMap_getD _ _ _ (by omega),
        rangeMap_getD _ _ _ (by omega), rangeMap_getD _ _ _ (by omega)]
    have hnew : (_SSIG1 (specW w16 (n - 2)) + specW w16 (n - 7) +
        _SSIG0 (specW w16 (n - 15)) + specW w16 (n - 16)) &&& M64 = specW w16 n := by
      rw [mask64]
      conv_rhs => rw [specW]
      rw [if_neg (by omega)]
    rw [hnew]
    have happ : (List.range n).map (specW w16) ++ [specW w16 n] =
        (List.range (n + 1)).map (specW w16) := by
      rw [List.range_succ, List.map_append]
      rfl
    rw [happ, ih (n + 1) (by omega)]
    have hnk : n + 1 + k = n + (k + 1) := by omega
    rw [hnk]

theorem extendW_64 (w16 : List Nat) (hw : w16.length = 16) :
    extendW 64 w16 = (List.range 80).map (specW w16) := by
  have h0 : extendW 64 w16 = extendW 64 ((List.range 16).map (specW w16)) := by
    rw [← w16_as_rangeMap w16 hw]
  rw [h0, extendW_rangeMap w16 64 16 (by norm_num)]

theorem roundsList_zip_foldl : ∀ (ks ws : List Nat) (s : St),
    roundsList ks ws s = (ks.zip ws).foldl (fun s kw => sha512Round kw.1 kw.2 s) s := by
  intro ks
  induction ks with
  | nil => intro ws s; cases ws <;> simp [roundsList]
  | cons k ks ih =>
    intro ws s
    cases ws with
    | nil => simp [roundsList]
    | cons w ws => simp [roundsList, ih]

theorem K_as_rangeMap : _K = (List.range 80).map (fun t => _K.getD t 0) := by decide

theorem rounds_eq_specRounds (w16 : List Nat) (hw : w16.length = 16) (s : St) :
    roundsList _K (extendW 64 w16) s =
    (List.range 80).foldl (fun s t => specRound (_K.getD t 0) (specW w16 t) s) s := by
  rw [extendW_64 w16 hw, roundsList_zip_foldl]
  conv_lhs => rw [K_as_rangeMap]
  rw [List.zip_map', List.foldl_map]
  simp [specRound_eq]

theorem block_eq (H block : List Nat) (hb : block.length = 128) :
    sha512Block H block = sha512SpecBlock H block := by
  have hw : (bytesToWordsBE block).length = 16 := by
    rw [bytesToWordsBE_length, hb]
  simp only [sha512Block, sha512SpecBlock]
  rw [rounds_eq_specRounds _ hw]
  simp [mask64]

theorem padded_length (msg : List Nat) :
    (padLoop (msg ++ [0x80]) ++ pack2Q (msg.length * 8)).length % 128 = 0 := by
  rw [padLoop_eq]
  simp only [List.length_append, List.length_cons, List.length_nil, List.length_replicate,
    pack2Q, beBytes, List.length_reverse, leBytes_length]
  omega

theorem pad_eq (msg : List Nat) :
    padLoop (msg ++ [0x80]) ++ pack2Q (msg.length * 8) = sha512SpecPad msg := by
  rw [padLoop_eq, pack2Q_eq, sha512SpecPad, specPadZeroCount]
  simp only [List.length_append, List.length_cons, List.length_nil, List.append_assoc]

/-- C2: for every input byte string, the from-scratch fallback compression
loop _sha512_one_shot produces a digest byte-identical to the standard
SHA-512 algorithm (modeled as sha512Spec following the specification's
description: closed-form padding, big-endian 128-bit length, recursive
message schedule and 80 indexed rounds modulo 2^64). -/
theorem sha512_fallback_correct (msg : List Nat) : _sha512_one_shot msg = sha512Spec msg := by
  simp only [_sha512_one_shot, sha512Spec]
  rw [pad_eq]
  have hlen : (sha512SpecPad msg).length % 128 = 0 := by
    rw [← pad_eq]
    exact padded_length msg
  have hfold : (chunks128 (sha512SpecPad msg)).foldl sha512Block H0 =
      (chunks128 (sha512SpecPad msg)).foldl sha512SpecBlock H0 := by
    apply List.foldl_ext
    intro s c hc
    exact block_eq s c (chunks128_length (sha512SpecPad msg).length _ le_rfl hlen c hc)
  rw [hfold]

/-- Known-answer validation of the embedded hash: the digest of the empty
string matches the published SHA-512 test vector. -/
theorem sha512_empty_kat : _sha512_one_shot [] =
    [0xcf,0x83,0xe1,0x35,0x7e,0xef,0xb8,0xbd,0xf1,0x54,0x28,0x50,
     0xd6,0x6d,0x80,0x07,0xd6,0x20,0xe4,0x05,0x0b,0x57,0x15,0xdc,
     0x83,0xf4,0xa9,0x21,0xd3,0x6c,0xe9,0xce,0x47,0xd0,0xd1,0x3c,
     0x5d,0x85,0xf2,0xb0,0xff,0x83,0x18,0xd2,0x87,0x7e,0xec,0x2f,
     0x63,0xb9,0x31,0xbd,0x47,0x41,0x7a,0x81,0xa5,0x38,0x32,0x7a,
     0xf9,0x27,0xda,0x3e] := by
  simp only [_sha512_one_shot, List.nil_append]
  rw [padLoop_eq]
  decide

end Ed25519
